import Mathlib

/-
Verification development for the error-diffusion dithering program
(src/cmd/main.go).  The repository holds two near-duplicate copies of the
program:

  * copy 1: `ditherColor` / `ditherMono` / `extractChannel` / `ditherChannel`
    (lines 74-203) with neighbour x-coordinate `nx := x + j - 2`, plus a
    `findClosestPaletteColor` quantizer (lines 206-211) and a `main` driver
    whose method switch maps "1".."4" to atkinson / floyd_steinberg / shtuki
    / sierra_lite with an atkinson fallback (lines 258-271);
  * copy 2: `dither` (lines 352-386) with neighbour x-coordinate
    `nx := x + j - 1`, an identical quantizer (lines 388-393), and a driver
    whose switch maps "3" to sierra_lite and "4" to shtuki (lines 431-444).

Modelling decisions, shared by every definition below:

  * a grayscale working buffer (Go `image.Gray` with `Rect.Min = (0,0)`) is a
    width, a height, and a row-major list of samples; well-formedness
    (`GrayBuf.wf`) states that the backing store has exactly width*height
    entries, which `image.NewGray` guarantees;
  * pixel reads and writes are `Option`-valued and fail (`none`) on any
    coordinate outside the buffer or any index past the backing store, so a
    theorem proving an engine run returns `some` certifies that every memory
    access it performed was in bounds (Go's `image.Gray` accessors would
    bounds-check as well; the engines' explicit guards are what we verify);
  * the Go expression
      `uint8(math.Min(255, math.Max(0, float64(old)+float64(err)*(float64(w)/divisor))))`
    is modelled with exact arithmetic and truncation toward zero (= floor,
    since the clamp lands in [0,255]).  The divisor, a `float64` in the Go
    signatures, is always one of the integer constants 8, 16, 42, 4, so the
    model takes it as an integer; `updateNeighbor` computes the clamped floor
    directly over `ℤ` (clamping and flooring commute because the clamp bounds
    are integers), and `updateNeighborFloat`, a literal `ℚ` transcription of
    the Go expression, is proved equal to it for every positive divisor
    (`updateNeighbor_models`).  For the dyadic catalog divisors 4, 8 and 16
    the float64 computation is exact, so the model is bit-for-bit the Go
    value; for divisor 42 (shtuki) it is the exact real-number semantics of
    the same expression, and no theorem below depends on the at-most-1-ulp
    float64 deviation possible there.  Nonpositive divisors are never passed
    by the program and no theorem evaluates the model at one.
-/

namespace Disering

/-- Embeds `findClosestPaletteColor` (identical in both copies, lines 206-211
and 388-393): midpoint threshold, 0 below 128 and 255 otherwise.  A `uint8`
argument is a natural number below 256. -/
def findClosestPaletteColor (pixel : Nat) : Nat :=
  if pixel < 128 then 0 else 255

/-- Grayscale working buffer: Go `image.Gray` with origin rectangle, samples
stored row-major (index `y*width + x`). -/
structure GrayBuf where
  width : Nat
  height : Nat
  pix : List Nat
deriving DecidableEq

/-- Well-formedness of a buffer: the backing store has exactly
`width * height` samples, as `image.NewGray` guarantees. -/
def GrayBuf.wf (g : GrayBuf) : Prop := g.pix.length = g.width * g.height

instance (g : GrayBuf) : Decidable g.wf := by
  unfold GrayBuf.wf
  infer_instance

/-- Pixel read, modelling `grayImg.GrayAt(x, y).Y` at a coordinate the engine
has checked (or must keep) in bounds; out-of-bounds coordinates and indices
past the backing store are modelled as a failure. -/
def getPix (g : GrayBuf) (x y : Int) : Option Nat :=
  if 0 ≤ x ∧ x < (g.width : Int) ∧ 0 ≤ y ∧ y < (g.height : Int) then
    g.pix[y.toNat * g.width + x.toNat]?
  else none

/-- Pixel write, modelling `grayImg.SetGray(x, y, color.Gray\x7bY: v\x7d)`; as with
`getPix`, an access outside the buffer is modelled as a failure. -/
def setPix (g : GrayBuf) (x y : Int) (v : Nat) : Option GrayBuf :=
  if 0 ≤ x ∧ x < (g.width : Int) ∧ 0 ≤ y ∧ y < (g.height : Int) then
    if y.toNat * g.width + x.toNat < g.pix.length then
      some { g with pix := g.pix.set (y.toNat * g.width + x.toNat) v }
    else none
  else none

/-- Total pixel read, modelling the exact Go `image.Gray.GrayAt` semantics
used by the copy loop of `ditherChannel` (lines 171-175) and the channel
recombination of `ditherColor` (lines 89-96): a coordinate outside the
rectangle yields the zero `color.Gray`. -/
def grayAtD (g : GrayBuf) (x y : Int) : Nat :=
  if 0 ≤ x ∧ x < (g.width : Int) ∧ 0 ≤ y ∧ y < (g.height : Int) then
    g.pix.getD (y.toNat * g.width + x.toNat) 0
  else 0

/-- Embeds the neighbour update expression (lines 129 / 193 / 376):
`uint8(math.Min(255, math.Max(0, float64(oldNeighbor)+float64(quantError)*(float64(matrix[i][j])/divisor))))`.
The clamp lands in [0,255], where the Go float-to-uint8 conversion truncates
toward zero, i.e. takes the floor; clamping with the integer bounds 0 and 255
commutes with the floor, and the floor of `old + err*w/divisor` is
`old + (err*w).fdiv divisor` (floor division), giving this executable integer
form.  `updateNeighbor_models` below proves it equal to the literal
transcription `updateNeighborFloat` for every positive divisor. -/
def updateNeighbor (oldNeighbor : Nat) (quantError : Int) (w : Nat) (divisor : Int) : Nat :=
  (min (255 : Int) (max 0 ((oldNeighbor : Int) + (quantError * (w : Int)).fdiv divisor))).toNat

/-- Literal transcription of the neighbour update expression over `ℚ` (the
exact-real reading of the Go float64 arithmetic): clamp
`old + err * (w / divisor)` to [0,255], then truncate toward zero. -/
def updateNeighborFloat (oldNeighbor : Nat) (quantError : Int) (w : Nat) (divisor : Int) : Nat :=
  (⌊min (255 : ℚ) (max 0 ((oldNeighbor : ℚ) + (quantError : ℚ) * ((w : ℚ) / divisor)))⌋).toNat

/-- Embeds the body of the innermost distribution loop (lines 125-132 /
189-196 / 372-379): a zero weight is skipped, an out-of-bounds neighbour
coordinate is silently skipped, otherwise the neighbour is updated. -/
def distCell (divisor : Int) (quantError : Int) (w : Nat) (nx ny : Int) (g : GrayBuf) :
    Option GrayBuf :=
  if w ≠ 0 then
    if 0 ≤ nx ∧ nx < (g.width : Int) ∧ 0 ≤ ny ∧ ny < (g.height : Int) then
      match getPix g nx ny with
      | none => none
      | some oldNeighbor => setPix g nx ny (updateNeighbor oldNeighbor quantError w divisor)
    else some g
  else some g

/-- Embeds the loop `for j := 0; j < len(matrix[i]); j++` over one kernel row;
`xoff` is the constant subtracted in `nx := x + j - xoff` (2 in copy 1,
1 in copy 2) and `j` the column index of the head of `ws` within the row. -/
def distRowGo (xoff : Int) (divisor : Int) (quantError : Int) (x y i : Nat) :
    Nat → List Nat → GrayBuf → Option GrayBuf
  | _, [], g => some g
  | j, w :: ws, g =>
    match distCell divisor quantError w ((x : Int) + (j : Int) - xoff) ((y : Int) + (i : Int)) g with
    | none => none
    | some g' => distRowGo xoff divisor quantError x y i (j + 1) ws g'

/-- Embeds the loop `for i := 0; i < len(matrix); i++` over the kernel rows;
`i` is the row index of the head of `rows` within the kernel. -/
def distGo (xoff : Int) (divisor : Int) (quantError : Int) (x y : Nat) :
    Nat → List (List Nat) → GrayBuf → Option GrayBuf
  | _, [], g => some g
  | i, row :: rows, g =>
    match distRowGo xoff divisor quantError x y i 0 row g with
    | none => none
    | some g' => distGo xoff divisor quantError x y (i + 1) rows g'

/-- Embeds the body of the per-pixel scan (lines 116-134 / 180-198 /
364-381): read the working value, quantize it, write it back, and distribute
the quantization error `int(oldPixel) - int(newPixel)` through the kernel. -/
def ditherStep (xoff : Int) (matrix : List (List Nat)) (divisor : Int) (x y : Nat)
    (g : GrayBuf) : Option GrayBuf :=
  match getPix g x y with
  | none => none
  | some oldPixel =>
    match setPix g x y (findClosestPaletteColor oldPixel) with
    | none => none
    | some g' =>
      distGo xoff divisor ((oldPixel : Int) - (findClosestPaletteColor oldPixel : Int))
        x y 0 matrix g'

/-- Embeds the inner scan loop `for x := bounds.Min.X; x < bounds.Max.X; x++`
on row `y`; the counter is the number of cells left in the row, and `x` the
current column, so a call with counter `W` and `x = 0` scans the whole row. -/
def scanRow (xoff : Int) (matrix : List (List Nat)) (divisor : Int) (y : Nat) :
    Nat → Nat → GrayBuf → Option GrayBuf
  | 0, _, g => some g
  | cnt + 1, x, g =>
    match ditherStep xoff matrix divisor x y g with
    | none => none
    | some g' => scanRow xoff matrix divisor y cnt (x + 1) g'

/-- Embeds the outer scan loop `for y := bounds.Min.Y; y < bounds.Max.Y; y++`;
the counter is the number of rows left, and `y` the current row, so a call
with counter `H` and `y = 0` performs the whole raster scan. -/
def scanRows (xoff : Int) (matrix : List (List Nat)) (divisor : Int) (W : Nat) :
    Nat → Nat → GrayBuf → Option GrayBuf
  | 0, _, g => some g
  | cnt + 1, y, g =>
    match scanRow xoff matrix divisor y W 0 g with
    | none => none
    | some g' => scanRows xoff matrix divisor W cnt (y + 1) g'

/-- Embeds the dithering pass of `ditherMono` (copy 1, lines 113-136), which
runs with `nx := x + j - 2`.  The grayscale conversion loop preceding it
(lines 106-111) is the identity on an already-grayscale working buffer, so
the function takes the grayscale working buffer directly. -/
def ditherMono (matrix : List (List Nat)) (divisor : Int) (g : GrayBuf) : Option GrayBuf :=
  scanRows 2 matrix divisor g.width g.height 0 g

/-- Embeds `dither` (copy 2, lines 352-386), which runs the same pass with
`nx := x + j - 1`; as for `ditherMono`, the input is the grayscale working
buffer produced by the conversion loop (lines 356-360). -/
def dither (matrix : List (List Nat)) (divisor : Int) (g : GrayBuf) : Option GrayBuf :=
  scanRows 1 matrix divisor g.width g.height 0 g

/-- Embeds the copy loop of `ditherChannel` (lines 170-175): a fresh buffer of
the same dimensions filled with `channel.GrayAt(x, y)` for every in-bounds
coordinate. -/
def copyGray (channel : GrayBuf) : GrayBuf :=
  { width := channel.width
    height := channel.height
    pix := (List.range channel.height).flatMap fun (y : Nat) =>
      (List.range channel.width).map fun (x : Nat) => grayAtD channel (x : Int) (y : Int) }

/-- Embeds `ditherChannel` (copy 1, lines 166-203): copy the channel, then run
the same dithering pass as `ditherMono` (`nx := x + j - 2`). -/
def ditherChannel (channel : GrayBuf) (matrix : List (List Nat)) (divisor : Int) :
    Option GrayBuf :=
  scanRows 2 matrix divisor (copyGray channel).width (copyGray channel).height 0
    (copyGray channel)

/-- Decoded source raster for the colour path: dimensions plus the 8-bit
(r, g, b) samples of each pixel.  Go's `At(x,y).RGBA()` yields 16-bit
alpha-premultiplied samples and `extractChannel` shifts them back down by 8;
for the opaque images the program feeds this round-trips the 8-bit samples,
which the model exposes directly. -/
structure RGBImage where
  width : Nat
  height : Nat
  at8 : Nat → Nat → Nat × Nat × Nat

/-- Embeds `extractChannel` (lines 142-163): a grayscale buffer holding the
selected channel; the Go `switch` leaves the zero value for any index other
than 0, 1, 2. -/
def extractChannel (img : RGBImage) (channelIndex : Nat) : GrayBuf :=
  { width := img.width
    height := img.height
    pix := (List.range img.height).flatMap fun y =>
      (List.range img.width).map fun x =>
        match channelIndex with
        | 0 => (img.at8 x y).1
        | 1 => (img.at8 x y).2.1
        | 2 => (img.at8 x y).2.2
        | _ => 0 }

/-- Output raster of the colour path: row-major (r, g, b, a) samples. -/
structure RGBABuf where
  width : Nat
  height : Nat
  pix : List (Nat × Nat × Nat × Nat)
deriving DecidableEq

/-- Embeds `ditherColor` (copy 1, lines 74-99): extract the three channels,
dither each independently with `ditherChannel`, and recombine with full
opacity (`A: 255`) via `GrayAt` reads. -/
def ditherColor (img : RGBImage) (matrix : List (List Nat)) (divisor : Int) :
    Option RGBABuf :=
  match ditherChannel (extractChannel img 0) matrix divisor with
  | none => none
  | some dr =>
    match ditherChannel (extractChannel img 1) matrix divisor with
    | none => none
    | some dg =>
      match ditherChannel (extractChannel img 2) matrix divisor with
      | none => none
      | some db =>
        some { width := img.width
               height := img.height
               pix := (List.range img.height).flatMap fun (y : Nat) =>
                 (List.range img.width).map fun (x : Nat) =>
                   (grayAtD dr (x : Int) (y : Int), grayAtD dg (x : Int) (y : Int),
                    grayAtD db (x : Int) (y : Int), 255) }

/-- Atkinson kernel matrix (lines 26/28 and 319). -/
def atkinsonMatrix : List (List Nat) := [[0,0,1,1],[1,1,1,0],[0,1,0,0]]

/-- Floyd-Steinberg kernel matrix (lines 39/41 and 328). -/
def floydSteinbergMatrix : List (List Nat) := [[0,0,7],[3,5,1]]

/-- Shtuki kernel matrix (lines 51/53 and 346). -/
def shtukiMatrix : List (List Nat) := [[0,0,0,8,4],[2,4,8,4,2],[1,2,4,2,1]]

/-- Sierra Lite kernel matrix (lines 64/66 and 337). -/
def sierraLiteMatrix : List (List Nat) := [[0,0,2],[1,1,0]]

/-- The catalog of the four (matrix, divisor) pairs the named ditherers pass
to the engines. -/
def kernelCatalog : List (List (List Nat) × Int) :=
  [(atkinsonMatrix, 8), (floydSteinbergMatrix, 16), (shtukiMatrix, 42), (sierraLiteMatrix, 4)]

/-- Embeds the method-selection switch of copy 1's `main` (lines 258-271),
returning the `Name()` string of the chosen ditherer; any unrecognized
choice falls through to the default arm, which selects atkinson. -/
def selectDitherer1 (choice : String) : String :=
  match choice with
  | "1" => "atkinson"
  | "2" => "floyd_steinberg"
  | "3" => "shtuki"
  | "4" => "sierra_lite"
  | _ => "atkinson"

/-- Embeds the method-selection switch of copy 2's `main` (lines 431-444);
note choices 3 and 4 are swapped relative to copy 1. -/
def selectDitherer2 (choice : String) : String :=
  match choice with
  | "1" => "atkinson"
  | "2" => "floyd_steinberg"
  | "3" => "sierra_lite"
  | "4" => "shtuki"
  | _ => "atkinson"

/-- Concrete 2-by-1 grayscale buffer with samples 100, 100, the buffer of the
specification's reference scenario. -/
def buf100x2 : GrayBuf := { width := 2, height := 1, pix := [100, 100] }

/-- Concrete 1-by-1 grayscale buffer with sample 100. -/
def buf100 : GrayBuf := { width := 1, height := 1, pix := [100] }

/-- Concrete zero-area buffer. -/
def bufEmpty : GrayBuf := { width := 0, height := 0, pix := [] }

/-- A malformed kernel with the shape of Floyd-Steinberg but every weight
zero. -/
def zeroKernel : List (List Nat) := [[0,0,0],[0,0,0]]

/-- Concrete 1-by-1 colour image whose red, green and blue samples are all
100 at the only pixel. -/
def grayImage1 : RGBImage := { width := 1, height := 1, at8 := fun _ _ => (100, 100, 100) }

/-- Concrete unrecognized method choice. -/
def choiceFive : String := "5"

/-- Concrete 1-by-1 buffer holding the sample 0. -/
def buf0 : GrayBuf := { width := 1, height := 1, pix := [0] }

/-- Concrete 1-by-1 buffer holding the sample 255. -/
def buf255 : GrayBuf := { width := 1, height := 1, pix := [255] }

/-- Concrete 1-by-2 (one column, two rows) buffer with samples 100, 100. -/
def bufCol : GrayBuf := { width := 1, height := 2, pix := [100, 100] }

/-- The top (anchor) row of a kernel has no nonzero weight at or left of the
anchor offset: every nonzero entry of row 0 sits at a column index strictly
greater than `xoff`, so the anchor-row writes `nx = x + j - xoff` land
strictly to the right of the pixel being quantized. -/
def topRowOk (xoff : Int) (matrix : List (List Nat)) : Prop :=
  ∀ b, b < (matrix.getD 0 []).length → (matrix.getD 0 []).getD b 0 ≠ 0 →
    xoff < (b : Int)

/-- Every in-bounds coordinate strictly before the raster position `(x, y)` —
a row above `y`, or row `y` strictly left of column `x` — holds a bilevel
sample. -/
def bilevelBefore (g : GrayBuf) (x y : Nat) : Prop :=
  ∀ a b : Nat, a < g.width → b < g.height → (b < y ∨ (b = y ∧ a < x)) →
    (getPix g (a : Int) (b : Int) = some 0 ∨ getPix g (a : Int) (b : Int) = some 255)

instance (xoff : Int) (matrix : List (List Nat)) : Decidable (topRowOk xoff matrix) := by
  unfold topRowOk
  infer_instance

/-- Row-major index of an in-bounds coordinate stays inside a
width-times-height store. -/
theorem rowMajorIdx_lt {W H x y : Nat} (hx : x < W) (hy : y < H) :
    y * W + x < W * H := by
  have h1 : y * W + x < (y + 1) * W := by
    have hstep : (y + 1) * W = y * W + W := by ring
    omega
  have h2 : (y + 1) * W ≤ H * W := Nat.mul_le_mul_right W hy
  rw [Nat.mul_comm W H]
  exact Nat.lt_of_lt_of_le h1 h2

/-- Row-major indices agree only on equal coordinates when both columns are
within the width. -/
theorem rowMajorIdx_inj {W x x' y y' : Nat} (hx : x < W) (hx' : x' < W)
    (h : y * W + x = y' * W + x') : x = x' ∧ y = y' := by
  have hW : 0 < W := Nat.lt_of_le_of_lt (Nat.zero_le x) hx
  have e1 : (y * W + x) / W = y := by
    rw [Nat.mul_comm y W, Nat.mul_add_div hW, Nat.div_eq_of_lt hx]
    omega
  have e2 : (y' * W + x') / W = y' := by
    rw [Nat.mul_comm y' W, Nat.mul_add_div hW, Nat.div_eq_of_lt hx']
    omega
  have hyy : y = y' := by rw [← e1, ← e2, h]
  subst hyy
  exact ⟨by omega, rfl⟩

/-- Characterization of `getPix` at natural-number coordinates. -/
theorem getPix_natCast (g : GrayBuf) (x y : Nat) :
    getPix g (x : Int) (y : Int) =
      if x < g.width ∧ y < g.height then g.pix[y * g.width + x]? else none := by
  have hAB : (0 ≤ (x : Int) ∧ (x : Int) < (g.width : Int) ∧ 0 ≤ (y : Int) ∧
      (y : Int) < (g.height : Int)) ↔ (x < g.width ∧ y < g.height) := by omega
  simp only [getPix, Int.toNat_natCast, hAB]

/-- A well-formed buffer yields a sample at every in-bounds coordinate, and
that sample is a member of the store. -/
theorem getPix_total_int {g : GrayBuf} (hwf : g.wf) {nx ny : Int}
    (hb : 0 ≤ nx ∧ nx < (g.width : Int) ∧ 0 ≤ ny ∧ ny < (g.height : Int)) :
    ∃ v, getPix g nx ny = some v ∧ v ∈ g.pix := by
  have hx : nx.toNat < g.width := by omega
  have hy : ny.toNat < g.height := by omega
  have hidx : ny.toNat * g.width + nx.toNat < g.pix.length := by
    rw [hwf]
    exact rowMajorIdx_lt hx hy
  refine ⟨g.pix[ny.toNat * g.width + nx.toNat], ?_, List.getElem_mem hidx⟩
  simp only [getPix, if_pos hb]
  exact List.getElem?_eq_getElem hidx

/-- Writing at an in-bounds coordinate of a well-formed buffer succeeds and
produces the expected store. -/
theorem setPix_total_int {g : GrayBuf} (hwf : g.wf) {nx ny : Int}
    (hb : 0 ≤ nx ∧ nx < (g.width : Int) ∧ 0 ≤ ny ∧ ny < (g.height : Int)) (v : Nat) :
    setPix g nx ny v =
      some { g with pix := g.pix.set (ny.toNat * g.width + nx.toNat) v } := by
  have hx : nx.toNat < g.width := by omega
  have hy : ny.toNat < g.height := by omega
  have hidx : ny.toNat * g.width + nx.toNat < g.pix.length := by
    rw [hwf]
    exact rowMajorIdx_lt hx hy
  simp only [setPix, if_pos hb, if_pos hidx]

/-- A successful write preserves the dimensions and the store length. -/
theorem setPix_dims {g g' : GrayBuf} {nx ny : Int} {v : Nat}
    (h : setPix g nx ny v = some g') :
    g'.width = g.width ∧ g'.height = g.height ∧ g'.pix.length = g.pix.length := by
  unfold setPix at h
  split_ifs at h with hb hl
  · cases h
    exact ⟨rfl, rfl, List.length_set ..⟩

/-- A successful write preserves well-formedness. -/
theorem setPix_wf {g g' : GrayBuf} {nx ny : Int} {v : Nat}
    (h : setPix g nx ny v = some g') (hwf : g.wf) : g'.wf := by
  obtain ⟨h1, h2, h3⟩ := setPix_dims h
  unfold GrayBuf.wf at hwf ⊢
  rw [h1, h2, h3, hwf]

/-- A successful write can only have happened at an in-bounds coordinate. -/
theorem setPix_inBounds {g g' : GrayBuf} {nx ny : Int} {v : Nat}
    (h : setPix g nx ny v = some g') :
    (0 ≤ nx ∧ nx < (g.width : Int) ∧ 0 ≤ ny ∧ ny < (g.height : Int)) ∧
      ny.toNat * g.width + nx.toNat < g.pix.length := by
  unfold setPix at h
  split_ifs at h with hb hl
  · exact ⟨hb, hl⟩

/-- Reading back the written coordinate yields the written value. -/
theorem setPix_self {g g' : GrayBuf} {nx ny : Int} {v : Nat}
    (h : setPix g nx ny v = some g') : getPix g' nx ny = some v := by
  obtain ⟨hb, hl⟩ := setPix_inBounds h
  unfold setPix at h
  rw [if_pos hb, if_pos hl] at h
  cases h
  simp only [getPix]
  rw [if_pos hb]
  simp [List.getElem?_set, hl]

/-- Reading any other coordinate after a write sees the old buffer. -/
theorem setPix_preserve {g g' : GrayBuf} {nx ny : Int} {v : Nat}
    (h : setPix g nx ny v = some g') {a b : Int} (hne : ¬(a = nx ∧ b = ny)) :
    getPix g' a b = getPix g a b := by
  obtain ⟨hb, hl⟩ := setPix_inBounds h
  unfold setPix at h
  rw [if_pos hb, if_pos hl] at h
  cases h
  simp only [getPix]
  by_cases hab : 0 ≤ a ∧ a < (g.width : Int) ∧ 0 ≤ b ∧ b < (g.height : Int)
  · rw [if_pos hab, if_pos hab]
    have hxa : a.toNat < g.width := by omega
    have hxn : nx.toNat < g.width := by omega
    have hne2 : ny.toNat * g.width + nx.toNat ≠ b.toNat * g.width + a.toNat := by
      intro he
      obtain ⟨hx, hy⟩ := rowMajorIdx_inj hxn hxa he
      exact hne ⟨by omega, by omega⟩
    exact List.getElem?_set_ne hne2
  · rw [if_neg hab, if_neg hab]

/-- The inner-loop body `distCell` succeeds on every well-formed buffer and
preserves dimensions and well-formedness: a zero weight or an out-of-bounds
neighbour coordinate is skipped, and an in-bounds update is a valid write. -/
theorem distCell_total {g : GrayBuf} (hwf : g.wf) (d e : Int) (w : Nat) (nx ny : Int) :
    ∃ g', distCell d e w nx ny g = some g' ∧ g'.width = g.width ∧
      g'.height = g.height ∧ g'.wf := by
  unfold distCell
  split_ifs with hw hb
  · obtain ⟨v, hv, _⟩ := getPix_total_int hwf hb
    simp only [hv]
    rw [setPix_total_int hwf hb]
    refine ⟨_, rfl, rfl, rfl, ?_⟩
    unfold GrayBuf.wf at hwf ⊢
    simpa using hwf
  · exact ⟨g, rfl, rfl, rfl, hwf⟩
  · exact ⟨g, rfl, rfl, rfl, hwf⟩

/-- Whatever `distCell` did, coordinates other than its target `(nx, ny)` are
untouched. -/
theorem distCell_preserve {g g' : GrayBuf} {d e : Int} {w : Nat} {nx ny : Int}
    (h : distCell d e w nx ny g = some g') {a b : Int} (hne : ¬(a = nx ∧ b = ny)) :
    getPix g' a b = getPix g a b := by
  unfold distCell at h
  split_ifs at h with hw hb
  · cases hg : getPix g nx ny with
    | none =>
      simp only [hg] at h
      exact Option.noConfusion h
    | some v =>
      simp only [hg] at h
      exact setPix_preserve h hne
  · cases h
    rfl
  · cases h
    rfl

/-- A successful `distCell` run preserves dimensions and store length in
whatever case actually occurred. -/
theorem distCell_dims {g g' : GrayBuf} {d e : Int} {w : Nat} {nx ny : Int}
    (h : distCell d e w nx ny g = some g') :
    g'.width = g.width ∧ g'.height = g.height ∧ g'.pix.length = g.pix.length := by
  unfold distCell at h
  split_ifs at h with hw hb
  · cases hg : getPix g nx ny with
    | none =>
      simp only [hg] at h
      exact Option.noConfusion h
    | some v =>
      simp only [hg] at h
      exact setPix_dims h
  · cases h
    exact ⟨rfl, rfl, rfl⟩
  · cases h
    exact ⟨rfl, rfl, rfl⟩

/-- Replacing a sample in the store keeps a buffer well-formed. -/
theorem wf_set {g : GrayBuf} (hwf : g.wf) (n v : Nat) :
    GrayBuf.wf { g with pix := g.pix.set n v } := by
  unfold GrayBuf.wf at hwf ⊢
  simpa using hwf

/-- The inner distribution loop succeeds on every well-formed buffer,
preserving shape and well-formedness. -/
theorem distRowGo_total (xoff d e : Int) (x y i : Nat) (ws : List Nat) :
    ∀ (j : Nat) (g : GrayBuf), g.wf →
      ∃ g', distRowGo xoff d e x y i j ws g = some g' ∧ g'.width = g.width ∧
        g'.height = g.height ∧ g'.wf := by
  induction ws with
  | nil =>
    intro j g hwf
    exact ⟨g, rfl, rfl, rfl, hwf⟩
  | cons w ws ih =>
    intro j g hwf
    obtain ⟨g1, h1, hw1, hh1, hwf1⟩ :=
      distCell_total hwf d e w ((x : Int) + (j : Int) - xoff) ((y : Int) + (i : Int))
    obtain ⟨g2, h2, hw2, hh2, hwf2⟩ := ih (j + 1) g1 hwf1
    refine ⟨g2, ?_, by rw [hw2, hw1], by rw [hh2, hh1], hwf2⟩
    simp only [distRowGo, h1, h2]

/-- The outer distribution loop succeeds on every well-formed buffer,
preserving shape and well-formedness. -/
theorem distGo_total (xoff d e : Int) (x y : Nat) (rows : List (List Nat)) :
    ∀ (i : Nat) (g : GrayBuf), g.wf →
      ∃ g', distGo xoff d e x y i rows g = some g' ∧ g'.width = g.width ∧
        g'.height = g.height ∧ g'.wf := by
  induction rows with
  | nil =>
    intro i g hwf
    exact ⟨g, rfl, rfl, rfl, hwf⟩
  | cons row rows ih =>
    intro i g hwf
    obtain ⟨g1, h1, hw1, hh1, hwf1⟩ := distRowGo_total xoff d e x y i row 0 g hwf
    obtain ⟨g2, h2, hw2, hh2, hwf2⟩ := ih (i + 1) g1 hwf1
    refine ⟨g2, ?_, by rw [hw2, hw1], by rw [hh2, hh1], hwf2⟩
    simp only [distGo, h1, h2]

/-- The per-pixel body succeeds whenever the scanned coordinate is in bounds
of a well-formed buffer. -/
theorem ditherStep_total (xoff : Int) (matrix : List (List Nat)) (d : Int)
    {x y : Nat} {g : GrayBuf} (hwf : g.wf) (hx : x < g.width) (hy : y < g.height) :
    ∃ g', ditherStep xoff matrix d x y g = some g' ∧ g'.width = g.width ∧
      g'.height = g.height ∧ g'.wf := by
  have hb : 0 ≤ (x : Int) ∧ (x : Int) < (g.width : Int) ∧ 0 ≤ (y : Int) ∧
      (y : Int) < (g.height : Int) := by omega
  obtain ⟨v, hv, _⟩ := getPix_total_int hwf hb
  have hset := setPix_total_int hwf hb (findClosestPaletteColor v)
  obtain ⟨g2, h2, hw2, hh2, hwf2⟩ :=
    distGo_total xoff d ((v : Int) - (findClosestPaletteColor v : Int)) x y matrix 0
      { g with pix := (g.pix.set ((y : Int).toNat * g.width + (x : Int).toNat) (findClosestPaletteColor v)) }
      (wf_set hwf ((y : Int).toNat * g.width + (x : Int).toNat) (findClosestPaletteColor v))
  refine ⟨g2, ?_, by simpa using hw2, by simpa using hh2, hwf2⟩
  simp only [ditherStep, hv, hset, h2]

/-- The inner raster loop over one row succeeds as long as it stays within
the width of a well-formed buffer. -/
theorem scanRow_total (xoff : Int) (matrix : List (List Nat)) (d : Int) (y : Nat) :
    ∀ (cnt x : Nat) (g : GrayBuf), g.wf → x + cnt ≤ g.width → y < g.height →
      ∃ g', scanRow xoff matrix d y cnt x g = some g' ∧ g'.width = g.width ∧
        g'.height = g.height ∧ g'.wf := by
  intro cnt
  induction cnt with
  | zero =>
    intro x g hwf _ _
    exact ⟨g, rfl, rfl, rfl, hwf⟩
  | succ n ih =>
    intro x g hwf hxc hy
    have hx : x < g.width := by omega
    obtain ⟨g1, h1, hw1, hh1, hwf1⟩ := ditherStep_total xoff matrix d hwf hx hy
    obtain ⟨g2, h2, hw2, hh2, hwf2⟩ := ih (x + 1) g1 hwf1 (by omega) (by omega)
    refine ⟨g2, ?_, by rw [hw2, hw1], by rw [hh2, hh1], hwf2⟩
    simp only [scanRow, h1, h2]

/-- The outer raster loop succeeds as long as its width parameter is within
the buffer's width and it stays within the buffer's height. -/
theorem scanRows_total (xoff : Int) (matrix : List (List Nat)) (d : Int) (W : Nat) :
    ∀ (cnt y : Nat) (g : GrayBuf), g.wf → W ≤ g.width → y + cnt ≤ g.height →
      ∃ g', scanRows xoff matrix d W cnt y g = some g' ∧ g'.width = g.width ∧
        g'.height = g.height ∧ g'.wf := by
  intro cnt
  induction cnt with
  | zero =>
    intro y g hwf _ _
    exact ⟨g, rfl, rfl, rfl, hwf⟩
  | succ n ih =>
    intro y g hwf hW hyc
    obtain ⟨g1, h1, hw1, hh1, hwf1⟩ :=
      scanRow_total xoff matrix d y W 0 g hwf (by omega) (by omega)
    obtain ⟨g2, h2, hw2, hh2, hwf2⟩ := ih (y + 1) g1 hwf1 (by omega) (by omega)
    refine ⟨g2, ?_, by rw [hw2, hw1], by rw [hh2, hh1], hwf2⟩
    simp only [scanRows, h1, h2]

/-- The dithering pass of copy 1 (`ditherMono`) completes on every
well-formed buffer, with the dimensions preserved. -/
theorem ditherMono_total (matrix : List (List Nat)) (d : Int) {g : GrayBuf}
    (hwf : g.wf) :
    ∃ out, ditherMono matrix d g = some out ∧ out.width = g.width ∧
      out.height = g.height ∧ out.wf :=
  scanRows_total 2 matrix d g.width g.height 0 g hwf le_rfl (by omega)

/-- The dithering pass of copy 2 (`dither`) completes on every well-formed
buffer, with the dimensions preserved. -/
theorem dither_total (matrix : List (List Nat)) (d : Int) {g : GrayBuf}
    (hwf : g.wf) :
    ∃ out, dither matrix d g = some out ∧ out.width = g.width ∧
      out.height = g.height ∧ out.wf :=
  scanRows_total 1 matrix d g.width g.height 0 g hwf le_rfl (by omega)

/-- Length of a row-major rebuild: `h` rows of `w` samples each. -/
theorem rebuild_length (f : Nat → Nat → Nat) (w h : Nat) :
    ((List.range h).flatMap fun y => (List.range w).map fun x => f x y).length = w * h := by
  induction h with
  | zero => simp
  | succ n ih =>
    rw [List.range_succ, List.flatMap_append, List.length_append, ih]
    simp [Nat.mul_succ]

/-- Characterization of `grayAtD` at natural-number coordinates. -/
theorem grayAtD_natCast (g : GrayBuf) (x y : Nat) :
    grayAtD g (x : Int) (y : Int) =
      if x < g.width ∧ y < g.height then g.pix.getD (y * g.width + x) 0 else 0 := by
  have hAB : (0 ≤ (x : Int) ∧ (x : Int) < (g.width : Int) ∧ 0 ≤ (y : Int) ∧
      (y : Int) < (g.height : Int)) ↔ (x < g.width ∧ y < g.height) := by omega
  simp only [grayAtD, Int.toNat_natCast, hAB]

/-- Pointwise-equal functions give equal flat maps. -/
theorem flatMap_congr_left {α β : Type} {l : List α} {f g : α → List β}
    (h : ∀ a ∈ l, f a = g a) : l.flatMap f = l.flatMap g := by
  induction l with
  | nil => rfl
  | cons a l ih =>
    rw [List.flatMap_cons, List.flatMap_cons, h a (by simp),
      ih fun b hb => h b (by simp [hb])]

/-- Reading the first `w` positions of a store by default-valued lookup
reproduces its `w`-prefix. -/
theorem map_getD_range (l : List Nat) (w : Nat) (hw : w ≤ l.length) :
    (List.range w).map (fun x => l.getD x 0) = l.take w := by
  induction w with
  | zero => simp
  | succ n ih =>
    rw [List.range_succ, List.map_append, ih (by omega), List.take_succ]
    have hn : n < l.length := by omega
    simp [List.getD_eq_getElem?_getD, List.getElem?_eq_getElem hn]

/-- A row-major rebuild by default-valued lookup reproduces the store of a
buffer whose length is `w * h`. -/
theorem rebuild_getD_eq (w : Nat) :
    ∀ (h : Nat) (l : List Nat), l.length = w * h →
      ((List.range h).flatMap fun y => (List.range w).map fun x => l.getD (y * w + x) 0) = l := by
  intro h
  induction h with
  | zero =>
    intro l hlen
    rw [Nat.mul_zero] at hlen
    rw [List.eq_nil_of_length_eq_zero hlen]
    simp
  | succ n ih =>
    intro l hlen
    have hwle : w ≤ l.length := by rw [hlen, Nat.mul_succ]; omega
    rw [List.range_succ_eq_map, List.flatMap_cons, List.flatMap_map]
    have hfirst : (List.range w).map (fun x => l.getD (0 * w + x) 0) = l.take w := by
      rw [← map_getD_range l w hwle]
      apply List.map_congr_left
      intro a _
      rw [Nat.zero_mul, Nat.zero_add]
    have hdroplen : (l.drop w).length = w * n := by
      rw [List.length_drop, hlen, Nat.mul_succ]
      omega
    have hrest : ((List.range n).flatMap fun a =>
        (List.range w).map fun x => l.getD (Nat.succ a * w + x) 0) = l.drop w := by
      rw [← ih (l.drop w) hdroplen]
      apply flatMap_congr_left
      intro a _
      apply List.map_congr_left
      intro b _
      have hidx : Nat.succ a * w + b = w + (a * w + b) := by
        rw [Nat.succ_mul]
        omega
      rw [List.getD_eq_getElem?_getD, List.getD_eq_getElem?_getD, List.getElem?_drop, hidx]
    rw [hfirst, hrest, List.take_append_drop]

/-- The buffer built by the copy loop of `ditherChannel` is well-formed. -/
theorem copyGray_wf (ch : GrayBuf) : (copyGray ch).wf := by
  unfold copyGray GrayBuf.wf
  simp only
  exact rebuild_length (fun x y => grayAtD ch (x : Int) (y : Int)) ch.width ch.height

/-- On a well-formed channel the copy loop reproduces the channel exactly. -/
theorem copyGray_eq_self {ch : GrayBuf} (hwf : ch.wf) : copyGray ch = ch := by
  obtain ⟨w, h, p⟩ := ch
  unfold GrayBuf.wf at hwf
  simp only at hwf
  unfold copyGray
  simp only [GrayBuf.mk.injEq, true_and]
  have hcong : ((List.range h).flatMap fun (y : Nat) =>
      (List.range w).map fun (x : Nat) => grayAtD ⟨w, h, p⟩ (x : Int) (y : Int)) =
      ((List.range h).flatMap fun (y : Nat) =>
        (List.range w).map fun (x : Nat) => p.getD (y * w + x) 0) := by
    apply flatMap_congr_left
    intro y hy
    apply List.map_congr_left
    intro x hx
    rw [List.mem_range] at hy
    rw [List.mem_range] at hx
    rw [grayAtD_natCast]
    exact if_pos ⟨hx, hy⟩
  rw [hcong, rebuild_getD_eq w h p hwf]

/-- The buffer built by `extractChannel` is well-formed. -/
theorem extractChannel_wf (img : RGBImage) (c : Nat) : (extractChannel img c).wf := by
  unfold extractChannel GrayBuf.wf
  simp only
  exact rebuild_length _ img.width img.height

/-- `ditherChannel` completes on every channel buffer (well-formed or not:
its own copy loop always produces a well-formed working buffer), with the
channel's dimensions preserved. -/
theorem ditherChannel_total (matrix : List (List Nat)) (d : Int) (ch : GrayBuf) :
    ∃ out, ditherChannel ch matrix d = some out ∧ out.width = ch.width ∧
      out.height = ch.height ∧ out.wf := by
  obtain ⟨out, hout, hw, hh, hwf⟩ :=
    scanRows_total 2 matrix d (copyGray ch).width (copyGray ch).height 0 (copyGray ch)
      (copyGray_wf ch) le_rfl (by omega)
  exact ⟨out, hout, hw, hh, hwf⟩

/-- A coordinate avoided by every nonzero-weight target of one kernel row is
untouched by the inner distribution loop. -/
theorem distRowGo_preserve (xoff d e : Int) (x y i : Nat) (a b : Int) :
    ∀ (ws : List Nat) (j : Nat) (g g' : GrayBuf),
      distRowGo xoff d e x y i j ws g = some g' →
      (∀ k, k < ws.length → ws.getD k 0 ≠ 0 →
        ¬(a = (x : Int) + (j : Int) + (k : Int) - xoff ∧ b = (y : Int) + (i : Int))) →
      getPix g' a b = getPix g a b := by
  intro ws
  induction ws with
  | nil =>
    intro j g g' h _
    cases h
    rfl
  | cons w ws ih =>
    intro j g g' h hcond
    cases hc : distCell d e w ((x : Int) + (j : Int) - xoff) ((y : Int) + (i : Int)) g with
    | none =>
      simp only [distRowGo, hc] at h
      exact Option.noConfusion h
    | some g1 =>
      simp only [distRowGo, hc] at h
      have hp1 : getPix g1 a b = getPix g a b := by
        by_cases hw0 : w = 0
        · subst hw0
          simp only [distCell, ne_eq, not_true_eq_false, if_false, reduceIte] at hc
          cases hc
          rfl
        · apply distCell_preserve hc
          intro hand
          refine hcond 0 (by simp) (by simpa using hw0) ⟨?_, hand.2⟩
          rw [hand.1]
          push_cast
          ring
      have hp2 : getPix g' a b = getPix g1 a b := by
        apply ih (j + 1) g1 g' h
        intro k hk hkw
        intro hand
        refine hcond (k + 1) (by simpa using hk) (by simpa using hkw) ⟨?_, hand.2⟩
        rw [hand.1]
        push_cast
        ring
      rw [hp2, hp1]

/-- A coordinate avoided by every nonzero-weight target of the kernel is
untouched by the whole distribution loop. -/
theorem distGo_preserve (xoff d e : Int) (x y : Nat) (a b : Int) :
    ∀ (rows : List (List Nat)) (i : Nat) (g g' : GrayBuf),
      distGo xoff d e x y i rows g = some g' →
      (∀ r, r < rows.length → ∀ k, k < (rows.getD r []).length →
        (rows.getD r []).getD k 0 ≠ 0 →
        ¬(a = (x : Int) + (k : Int) - xoff ∧ b = (y : Int) + (i : Int) + (r : Int))) →
      getPix g' a b = getPix g a b := by
  intro rows
  induction rows with
  | nil =>
    intro i g g' h _
    cases h
    rfl
  | cons row rows ih =>
    intro i g g' h hcond
    cases hc : distRowGo xoff d e x y i 0 row g with
    | none =>
      simp only [distGo, hc] at h
      exact Option.noConfusion h
    | some g1 =>
      simp only [distGo, hc] at h
      have hp1 : getPix g1 a b = getPix g a b := by
        apply distRowGo_preserve xoff d e x y i a b row 0 g g1 hc
        intro k hk hkw
        intro hand
        refine hcond 0 (by simp) k (by simpa using hk) (by simpa using hkw)
          ⟨?_, ?_⟩
        · rw [hand.1]
          push_cast
          ring
        · rw [hand.2]
          push_cast
          ring
      have hp2 : getPix g' a b = getPix g1 a b := by
        apply ih (i + 1) g1 g' h
        intro r hr k hk hkw
        intro hand
        refine hcond (r + 1) (by simpa using hr) k (by simpa using hk)
          (by simpa using hkw) ⟨hand.1, ?_⟩
        rw [hand.2]
        push_cast
        ring
      rw [hp2, hp1]

/-- The per-pixel body at scan position `(x, y)` never modifies a row above
`y`: the quantization write hits `(x, y)` itself and every distribution write
hits a row `y + i` with `i ≥ 0`. -/
theorem ditherStep_preserveAbove (xoff : Int) (matrix : List (List Nat)) (d : Int)
    (x y : Nat) {g g' : GrayBuf} (h : ditherStep xoff matrix d x y g = some g')
    (a b : Int) (hb : b < (y : Int)) : getPix g' a b = getPix g a b := by
  unfold ditherStep at h
  cases hv : getPix g (x : Int) (y : Int) with
  | none =>
    rw [hv] at h
    exact Option.noConfusion h
  | some v =>
    rw [hv] at h
    simp only at h
    cases hs : setPix g (x : Int) (y : Int) (findClosestPaletteColor v) with
    | none =>
      rw [hs] at h
      exact Option.noConfusion h
    | some g1 =>
      rw [hs] at h
      simp only at h
      have hp1 : getPix g1 a b = getPix g a b :=
        setPix_preserve hs fun hand => by omega
      have hp2 : getPix g' a b = getPix g1 a b := by
        apply distGo_preserve xoff d _ x y a b matrix 0 g1 g' h
        intro r _ k _ _
        intro hand
        omega
      rw [hp2, hp1]

/-- The inner raster loop over row `y` never modifies a row above `y`. -/
theorem scanRow_preserveAbove (xoff : Int) (matrix : List (List Nat)) (d : Int)
    (y : Nat) :
    ∀ (cnt x : Nat) (g g' : GrayBuf), scanRow xoff matrix d y cnt x g = some g' →
      ∀ (a b : Int), b < (y : Int) → getPix g' a b = getPix g a b := by
  intro cnt
  induction cnt with
  | zero =>
    intro x g g' h a b _
    cases h
    rfl
  | succ n ih =>
    intro x g g' h a b hb
    cases hc : ditherStep xoff matrix d x y g with
    | none =>
      simp only [scanRow, hc] at h
      exact Option.noConfusion h
    | some g1 =>
      simp only [scanRow, hc] at h
      rw [ih (x + 1) g1 g' h a b hb]
      exact ditherStep_preserveAbove xoff matrix d x y hc a b hb

/-- Rows above the current scan row are final: the raster loop starting at
row `y` never modifies any coordinate in a row strictly above `y`. -/
theorem scanRows_preserveAbove (xoff : Int) (matrix : List (List Nat)) (d : Int)
    (W : Nat) :
    ∀ (cnt y : Nat) (g g' : GrayBuf), scanRows xoff matrix d W cnt y g = some g' →
      ∀ (a b : Int), b < (y : Int) → getPix g' a b = getPix g a b := by
  intro cnt
  induction cnt with
  | zero =>
    intro y g g' h a b _
    cases h
    rfl
  | succ n ih =>
    intro y g g' h a b hb
    cases hc : scanRow xoff matrix d y W 0 g with
    | none =>
      simp only [scanRows, hc] at h
      exact Option.noConfusion h
    | some g1 =>
      simp only [scanRows, hc] at h
      rw [ih (y + 1) g1 g' h a b (by omega)]
      exact scanRow_preserveAbove xoff matrix d y W 0 g g1 hc a b hb

/-- C10: in every dithering function every error-distribution write targets a
row `ny = y + i` with `i ≥ 0` (`i` ranges over kernel row indices, which are
nonnegative), so no write ever lands in a row above the one being scanned;
consequently, once the raster scan has advanced past a row, that row is never
modified again.  Stated for the shared scan loop `scanRows` at an arbitrary
anchor offset `xoff`, which instantiates to all three dithering functions
(`ditherMono` and `ditherChannel` run it at offset 2, `dither` at offset 1):
the per-pixel body at `(x, y)` leaves every coordinate with row index below
`y` unchanged, and the raster loop starting at row `y` does too — each
completed row of the working buffer is final for the rest of the pass. -/
theorem completedRows_final :
    (∀ (xoff : Int) (matrix : List (List Nat)) (d : Int) (x y : Nat)
      (g g' : GrayBuf), ditherStep xoff matrix d x y g = some g' →
      ∀ (a b : Int), b < (y : Int) → getPix g' a b = getPix g a b) ∧
    (∀ (xoff : Int) (matrix : List (List Nat)) (d : Int) (W cnt y : Nat)
      (g g' : GrayBuf), scanRows xoff matrix d W cnt y g = some g' →
      ∀ (a b : Int), b < (y : Int) → getPix g' a b = getPix g a b) := by
  constructor
  · intro xoff matrix d x y g g' h a b hb
    exact ditherStep_preserveAbove xoff matrix d x y h a b hb
  · intro xoff matrix d W cnt y g g' h a b hb
    exact scanRows_preserveAbove xoff matrix d W cnt y g g' h a b hb

/-- Witness for `completedRows_final`: on the concrete one-column buffer
`bufCol`, running the per-pixel body and the raster loop on row 1 leaves the
already-scanned row 0 untouched. -/
theorem completedRows_final_witness :
    getPix { width := 1, height := 2, pix := [100, 0] : GrayBuf } 0 0 =
        getPix bufCol 0 0 ∧
      getPix { width := 1, height := 2, pix := [100, 0] : GrayBuf } 0 0 =
        getPix bufCol 0 0 := by
  constructor
  · exact completedRows_final.1 1 floydSteinbergMatrix 16 0 1 bufCol
      { width := 1, height := 2, pix := [100, 0] } (by decide) 0 0 (by decide)
  · exact completedRows_final.2 1 floydSteinbergMatrix 16 1 1 1 bufCol
      { width := 1, height := 2, pix := [100, 0] } (by decide) 0 0 (by decide)

/-- The quantizer only ever produces the two levels 0 and 255. -/
theorem fcpc_bilevel (p : Nat) :
    findClosestPaletteColor p = 0 ∨ findClosestPaletteColor p = 255 := by
  unfold findClosestPaletteColor
  split_ifs <;> simp

/-- Under `topRowOk`, the per-pixel body quantizes `(x, y)` and only ever
writes strictly ahead of it in raster order, so afterwards everything up to
and including `(x, y)` is bilevel. -/
theorem ditherStep_bilevel (xoff : Int) (matrix : List (List Nat)) (d : Int)
    (hm : topRowOk xoff matrix) {x y : Nat} {g : GrayBuf} (hwf : g.wf)
    (hx : x < g.width) (hy : y < g.height) (hbv : bilevelBefore g x y) :
    ∃ g', ditherStep xoff matrix d x y g = some g' ∧ g'.width = g.width ∧
      g'.height = g.height ∧ g'.wf ∧ bilevelBefore g' (x + 1) y := by
  have hb : 0 ≤ (x : Int) ∧ (x : Int) < (g.width : Int) ∧ 0 ≤ (y : Int) ∧
      (y : Int) < (g.height : Int) := by omega
  obtain ⟨v, hv, _⟩ := getPix_total_int hwf hb
  have hset := setPix_total_int hwf hb (findClosestPaletteColor v)
  set g1 : GrayBuf := { g with
    pix := (g.pix.set ((y : Int).toNat * g.width + (x : Int).toNat) (findClosestPaletteColor v)) }
    with hg1
  have hwf1 : g1.wf := wf_set hwf _ _
  have hg1w : g1.width = g.width := rfl
  have hg1h : g1.height = g.height := rfl
  obtain ⟨g2, h2, hw2, hh2, hwf2⟩ :=
    distGo_total xoff d ((v : Int) - (findClosestPaletteColor v : Int)) x y matrix 0 g1 hwf1
  have hpres : ∀ (a b : Int), (b < (y : Int) ∨ (b = (y : Int) ∧ a ≤ (x : Int))) →
      getPix g2 a b = getPix g1 a b := by
    intro a b hcase
    apply distGo_preserve xoff d _ x y a b matrix 0 g1 g2 h2
    intro r hr k hk hkw hand
    rcases Nat.eq_zero_or_pos r with hr0 | hrpos
    · subst hr0
      have hk2 := hm k hk hkw
      omega
    · omega
  have hq : getPix g2 (x : Int) (y : Int) = some (findClosestPaletteColor v) := by
    rw [hpres (x : Int) (y : Int) (Or.inr ⟨rfl, le_rfl⟩)]
    exact setPix_self hset
  refine ⟨g2, ?_, hw2.trans hg1w, hh2.trans hg1h, hwf2, ?_⟩
  · simp only [ditherStep, hv, hset, h2]
  · intro a b ha hb2 hcase
    have haw : a < g.width := by
      rw [hw2, hg1w] at ha
      exact ha
    have hbh : b < g.height := by
      rw [hh2, hg1h] at hb2
      exact hb2
    by_cases hax : a = x ∧ b = y
    · rw [hax.1, hax.2, hq]
      rcases fcpc_bilevel v with h0 | h0
      · left
        rw [h0]
      · right
        rw [h0]
    · have hbefore : b < y ∨ (b = y ∧ a < x) := by omega
      have hstep1 : getPix g2 (a : Int) (b : Int) = getPix g1 (a : Int) (b : Int) := by
        apply hpres
        omega
      have hstep2 : getPix g1 (a : Int) (b : Int) = getPix g (a : Int) (b : Int) := by
        apply setPix_preserve hset
        intro hand
        exact hax ⟨by exact_mod_cast hand.1, by exact_mod_cast hand.2⟩
      rw [hstep1, hstep2]
      exact hbv a b haw hbh hbefore

/-- Under `topRowOk`, scanning the rest of a row extends the bilevel prefix
to the end of the scanned range. -/
theorem scanRow_bilevel (xoff : Int) (matrix : List (List Nat)) (d : Int)
    (hm : topRowOk xoff matrix) (y : Nat) :
    ∀ (cnt x : Nat) (g : GrayBuf), g.wf → x + cnt ≤ g.width → y < g.height →
      bilevelBefore g x y →
      ∃ g', scanRow xoff matrix d y cnt x g = some g' ∧ g'.width = g.width ∧
        g'.height = g.height ∧ g'.wf ∧ bilevelBefore g' (x + cnt) y := by
  intro cnt
  induction cnt with
  | zero =>
    intro x g hwf _ _ hbv
    exact ⟨g, rfl, rfl, rfl, hwf, hbv⟩
  | succ n ih =>
    intro x g hwf hxc hy hbv
    have hx : x < g.width := by omega
    obtain ⟨g1, h1, hw1, hh1, hwf1, hbv1⟩ :=
      ditherStep_bilevel xoff matrix d hm hwf hx hy hbv
    obtain ⟨g2, h2, hw2, hh2, hwf2, hbv2⟩ :=
      ih (x + 1) g1 hwf1 (by omega) (by omega) hbv1
    have hsum : x + 1 + n = x + (n + 1) := by omega
    rw [hsum] at hbv2
    refine ⟨g2, ?_, by rw [hw2, hw1], by rw [hh2, hh1], hwf2, hbv2⟩
    simp only [scanRow, h1, h2]

/-- A buffer bilevel up to the end of row `y` is bilevel up to the start of
row `y + 1`. -/
theorem bilevelBefore_rowEnd {g : GrayBuf} {y : Nat}
    (h : bilevelBefore g g.width y) : bilevelBefore g 0 (y + 1) := by
  intro a b ha hb hcase
  apply h a b ha hb
  omega

/-- Under `topRowOk`, the raster scan of all remaining rows produces a fully
bilevel buffer. -/
theorem scanRows_bilevel (xoff : Int) (matrix : List (List Nat)) (d : Int)
    (hm : topRowOk xoff matrix) (W : Nat) :
    ∀ (cnt y : Nat) (g : GrayBuf), g.wf → W = g.width → y + cnt = g.height →
      bilevelBefore g 0 y →
      ∃ g', scanRows xoff matrix d W cnt y g = some g' ∧ g'.width = g.width ∧
        g'.height = g.height ∧ g'.wf ∧ bilevelBefore g' 0 g'.height := by
  intro cnt
  induction cnt with
  | zero =>
    intro y g hwf _ hyh hbv
    refine ⟨g, rfl, rfl, rfl, hwf, ?_⟩
    rw [← hyh]
    simpa using hbv
  | succ n ih =>
    intro y g hwf hW hyc hbv
    obtain ⟨g1, h1, hw1, hh1, hwf1, hbv1⟩ :=
      scanRow_bilevel xoff matrix d hm y W 0 g hwf (by omega) (by omega) hbv
    have hbv1' : bilevelBefore g1 0 (y + 1) := by
      apply bilevelBefore_rowEnd
      rw [hw1, ← hW]
      simpa using hbv1
    obtain ⟨g2, h2, hw2, hh2, hwf2, hbv2⟩ :=
      ih (y + 1) g1 hwf1 (by omega) (by omega) hbv1'
    refine ⟨g2, ?_, by rw [hw2, hw1], by rw [hh2, hh1], hwf2, hbv2⟩
    simp only [scanRows, h1, h2]

/-- Everything in the store of a well-formed fully-bilevel buffer is 0 or
255. -/
theorem bilevel_pix_of_bilevelBefore {g : GrayBuf} (hwf : g.wf)
    (h : bilevelBefore g 0 g.height) : ∀ v ∈ g.pix, v = 0 ∨ v = 255 := by
  intro v hv
  obtain ⟨n, hn⟩ := List.mem_iff_getElem?.mp hv
  have hlen : n < g.pix.length := by
    rcases List.getElem?_eq_some.mp hn with ⟨hl, _⟩
    exact hl
  have hWpos : 0 < g.width := by
    by_contra hW
    have hW0 : g.width = 0 := by omega
    rw [hwf, hW0, Nat.zero_mul] at hlen
    omega
  have ha : n % g.width < g.width := Nat.mod_lt n hWpos
  have hbidx : n / g.width < g.height := by
    rw [hwf] at hlen
    rw [Nat.div_lt_iff_lt_mul hWpos, Nat.mul_comm g.height g.width]
    exact hlen
  have hidx : (n / g.width) * g.width + n % g.width = n := by
    have h1 := Nat.div_add_mod n g.width
    have h2 : (n / g.width) * g.width = g.width * (n / g.width) := Nat.mul_comm _ _
    omega
  have hg : getPix g ((n % g.width : Nat) : Int) ((n / g.width : Nat) : Int) =
      g.pix[n]? := by
    rw [getPix_natCast, if_pos ⟨ha, hbidx⟩, hidx]
  have hbl := h (n % g.width) (n / g.width) ha hbidx (Or.inl hbidx)
  rw [hg, hn] at hbl
  rcases hbl with h0 | h0
  · left
    exact Option.some_injective _ h0
  · right
    exact Option.some_injective _ h0

/-- Under `topRowOk`, the full raster scan over a well-formed buffer
completes with a same-dimension buffer whose every sample is 0 or 255. -/
theorem scanRows_bilevel_full (xoff : Int) (matrix : List (List Nat)) (d : Int)
    (hm : topRowOk xoff matrix) {g : GrayBuf} (hwf : g.wf) :
    ∃ out, scanRows xoff matrix d g.width g.height 0 g = some out ∧
      out.width = g.width ∧ out.height = g.height ∧ out.wf ∧
      ∀ v ∈ out.pix, v = 0 ∨ v = 255 := by
  have hbv0 : bilevelBefore g 0 0 := by
    intro a b _ _ hcase
    omega
  obtain ⟨out, hout, hw, hh, hwfo, hbv⟩ :=
    scanRows_bilevel xoff matrix d hm g.width g.height 0 g hwf rfl (by omega) hbv0
  exact ⟨out, hout, hw, hh, hwfo, bilevel_pix_of_bilevelBefore hwfo hbv⟩

/-- A kernel whose weights are all zero trivially satisfies `topRowOk` at any
anchor offset: there is no nonzero anchor-row weight at all. -/
theorem topRowOk_of_allZero (xoff : Int) {matrix : List (List Nat)}
    (hz : ∀ row ∈ matrix, ∀ w ∈ row, w = 0) : topRowOk xoff matrix := by
  intro b hblen hbne
  exfalso
  apply hbne
  cases matrix with
  | nil => simp at hblen
  | cons row rows =>
    simp only [List.getD_cons_zero] at hblen ⊢
    rw [List.getD_eq_getElem?_getD, List.getElem?_eq_getElem hblen]
    exact hz row (List.mem_cons_self row rows) _ (List.getElem_mem hblen)

/-- A zero-width raster scan visits nothing and returns its buffer. -/
theorem scanRows_zeroWidth (xoff : Int) (matrix : List (List Nat)) (d : Int) :
    ∀ (cnt y : Nat) (g : GrayBuf), scanRows xoff matrix d 0 cnt y g = some g := by
  intro cnt
  induction cnt with
  | zero =>
    intro y g
    rfl
  | succ n ih =>
    intro y g
    simp only [scanRows, scanRow]
    exact ih (y + 1) g

/-- C2 (amended): for every kernel in the catalog and every well-formed input
buffer, every sample of the buffer returned by `dither` (copy 2, anchor
offset 1) is exactly 0 or 255.  For the copy-1 functions `ditherMono` and
`ditherChannel` (anchor offset 2) the same holds for the shtuki kernel, whose
anchor row has no nonzero weight at or left of column index 2 — but not for
atkinson, floyd_steinberg or sierra_lite, whose anchor-row weight at column 2
makes the engine write quantization error back into the just-quantized pixel
(see the counterexample `bilevel_output_cex`). -/
theorem bilevel_output (matrix : List (List Nat)) (d : Int)
    (hmem : (matrix, d) ∈ kernelCatalog) {g : GrayBuf} (hwf : g.wf) :
    (∃ out, dither matrix d g = some out ∧ ∀ v ∈ out.pix, v = 0 ∨ v = 255) ∧
    (matrix = shtukiMatrix →
      (∃ out, ditherMono matrix d g = some out ∧ ∀ v ∈ out.pix, v = 0 ∨ v = 255) ∧
      ∀ ch : GrayBuf, ∃ out, ditherChannel ch matrix d = some out ∧
        ∀ v ∈ out.pix, v = 0 ∨ v = 255) := by
  have hm1 : topRowOk 1 matrix := by
    simp only [kernelCatalog, List.mem_cons, List.not_mem_nil, or_false,
      Prod.mk.injEq] at hmem
    rcases hmem with ⟨hA, _⟩ | ⟨hA, _⟩ | ⟨hA, _⟩ | ⟨hA, _⟩ <;> subst hA <;> decide
  constructor
  · obtain ⟨out, hout, _, _, _, hbl⟩ := scanRows_bilevel_full 1 matrix d hm1 hwf
    exact ⟨out, hout, hbl⟩
  · intro hsh
    subst hsh
    have hm2 : topRowOk 2 shtukiMatrix := by decide
    constructor
    · obtain ⟨out, hout, _, _, _, hbl⟩ := scanRows_bilevel_full 2 shtukiMatrix d hm2 hwf
      exact ⟨out, hout, hbl⟩
    · intro ch
      obtain ⟨out, hout, _, _, _, hbl⟩ :=
        scanRows_bilevel_full 2 shtukiMatrix d hm2 (copyGray_wf ch)
      exact ⟨out, hout, hbl⟩

/-- Witness for `bilevel_output`, at the shtuki catalog entry and the
concrete 1-by-1 buffer `buf100`. -/
theorem bilevel_output_witness :
    (shtukiMatrix, (42 : Int)) ∈ kernelCatalog ∧ buf100.wf ∧
      ((∃ out, dither shtukiMatrix 42 buf100 = some out ∧
          ∀ v ∈ out.pix, v = 0 ∨ v = 255) ∧
        (shtukiMatrix = shtukiMatrix →
          (∃ out, ditherMono shtukiMatrix 42 buf100 = some out ∧
            ∀ v ∈ out.pix, v = 0 ∨ v = 255) ∧
          ∀ ch : GrayBuf, ∃ out, ditherChannel ch shtukiMatrix 42 = some out ∧
            ∀ v ∈ out.pix, v = 0 ∨ v = 255)) :=
  ⟨by decide, by decide, bilevel_output shtukiMatrix 42 (by decide) (by decide)⟩

/-- Counterexample to the claim that every sample returned by `ditherMono` is
0 or 255: on the 1-by-1 buffer holding 100 with the floyd_steinberg kernel,
copy 1's `ditherMono` returns the sample 43 — the pixel is quantized to 0 and
then the anchor-row weight 7 (at column 2, i.e. offset `x + 2 - 2 = x`) adds
`100 * 7 / 16 = 43` of the error straight back into it. -/
theorem bilevel_output_cex :
    ditherMono floydSteinbergMatrix 16 buf100 =
        some { width := 1, height := 1, pix := [43] } ∧
      ¬((43 : Nat) = 0 ∨ (43 : Nat) = 255) := by
  constructor
  · decide
  · decide

/-- C4: for every kernel in the catalog and every well-formed input buffer
(including a 1-by-1 buffer), all three dithering functions complete normally
and return a buffer of the input's dimensions: every kernel weight whose
computed neighbour coordinate falls outside the buffer bounds is silently
skipped by the bounds guard, and every access actually performed is in
bounds — an out-of-bounds access is modelled as engine failure (`none`), and
none occurs. -/
theorem edge_safety (matrix : List (List Nat)) (d : Int)
    (_hmem : (matrix, d) ∈ kernelCatalog) {g : GrayBuf} (hwf : g.wf) :
    (∃ out, ditherMono matrix d g = some out ∧ out.width = g.width ∧
      out.height = g.height) ∧
    (∃ out, ditherChannel g matrix d = some out ∧ out.width = g.width ∧
      out.height = g.height) ∧
    (∃ out, dither matrix d g = some out ∧ out.width = g.width ∧
      out.height = g.height) := by
  refine ⟨?_, ?_, ?_⟩
  · obtain ⟨out, h, hw, hh, _⟩ := ditherMono_total matrix d hwf
    exact ⟨out, h, hw, hh⟩
  · obtain ⟨out, h, hw, hh, _⟩ := ditherChannel_total matrix d g
    exact ⟨out, h, hw, hh⟩
  · obtain ⟨out, h, hw, hh, _⟩ := dither_total matrix d hwf
    exact ⟨out, h, hw, hh⟩

/-- Witness for `edge_safety`: the atkinson catalog kernel on the concrete
1-by-1 buffer `buf100`. -/
theorem edge_safety_witness :
    (atkinsonMatrix, (8 : Int)) ∈ kernelCatalog ∧ buf100.wf ∧
      ((∃ out, ditherMono atkinsonMatrix 8 buf100 = some out ∧
          out.width = buf100.width ∧ out.height = buf100.height) ∧
        (∃ out, ditherChannel buf100 atkinsonMatrix 8 = some out ∧
          out.width = buf100.width ∧ out.height = buf100.height) ∧
        (∃ out, dither atkinsonMatrix 8 buf100 = some out ∧
          out.width = buf100.width ∧ out.height = buf100.height)) :=
  ⟨by decide, by decide, edge_safety atkinsonMatrix 8 (by decide) (by decide)⟩

/-- C9 (amended): the engines perform no configuration validation and signal
no error.  A kernel with all weights zero is processed normally by both
copies: the raster scan runs to completion and returns a same-dimension,
fully quantized buffer (every sample 0 or 255; no error is distributed).  A
zero-area buffer (no rows, or no columns) is returned unchanged.  In neither
case is any failure signalled before, during, or after processing. -/
theorem no_validation :
    (∀ (matrix : List (List Nat)) (d : Int) (g : GrayBuf), g.wf →
      (∀ row ∈ matrix, ∀ w ∈ row, w = 0) →
      (∃ out, ditherMono matrix d g = some out ∧ out.width = g.width ∧
        out.height = g.height ∧ ∀ v ∈ out.pix, v = 0 ∨ v = 255) ∧
      (∃ out, dither matrix d g = some out ∧ out.width = g.width ∧
        out.height = g.height ∧ ∀ v ∈ out.pix, v = 0 ∨ v = 255)) ∧
    (∀ (matrix : List (List Nat)) (d : Int) (g : GrayBuf),
      g.height = 0 ∨ g.width = 0 →
      ditherMono matrix d g = some g ∧ dither matrix d g = some g) := by
  constructor
  · intro matrix d g hwf hz
    constructor
    · obtain ⟨out, hout, hw, hh, _, hbl⟩ :=
        scanRows_bilevel_full 2 matrix d (topRowOk_of_allZero 2 hz) hwf
      exact ⟨out, hout, hw, hh, hbl⟩
    · obtain ⟨out, hout, hw, hh, _, hbl⟩ :=
        scanRows_bilevel_full 1 matrix d (topRowOk_of_allZero 1 hz) hwf
      exact ⟨out, hout, hw, hh, hbl⟩
  · intro matrix d g hzero
    rcases hzero with hh0 | hw0
    · constructor
      · show scanRows 2 matrix d g.width g.height 0 g = some g
        rw [hh0]
        rfl
      · show scanRows 1 matrix d g.width g.height 0 g = some g
        rw [hh0]
        rfl
    · constructor
      · show scanRows 2 matrix d g.width g.height 0 g = some g
        rw [hw0]
        exact scanRows_zeroWidth 2 matrix d g.height 0 g
      · show scanRows 1 matrix d g.width g.height 0 g = some g
        rw [hw0]
        exact scanRows_zeroWidth 1 matrix d g.height 0 g

/-- Witness for `no_validation`: the all-zero kernel `zeroKernel` on the
concrete buffer `buf100`, and the zero-area buffer `bufEmpty` with the
floyd_steinberg kernel. -/
theorem no_validation_witness :
    (buf100.wf ∧ (∀ row ∈ zeroKernel, ∀ w ∈ row, w = 0) ∧
      ((∃ out, ditherMono zeroKernel 16 buf100 = some out ∧
          out.width = buf100.width ∧ out.height = buf100.height ∧
          ∀ v ∈ out.pix, v = 0 ∨ v = 255) ∧
        (∃ out, dither zeroKernel 16 buf100 = some out ∧
          out.width = buf100.width ∧ out.height = buf100.height ∧
          ∀ v ∈ out.pix, v = 0 ∨ v = 255))) ∧
      ((bufEmpty.height = 0 ∨ bufEmpty.width = 0) ∧
        ditherMono floydSteinbergMatrix 16 bufEmpty = some bufEmpty ∧
        dither floydSteinbergMatrix 16 bufEmpty = some bufEmpty) :=
  ⟨⟨by decide, by decide, no_validation.1 zeroKernel 16 buf100 (by decide) (by decide)⟩,
    ⟨by decide, no_validation.2 floydSteinbergMatrix 16 bufEmpty (by decide)⟩⟩

/-- Counterexample to the claim that a malformed (all-zero) kernel or a
zero-area buffer makes the engine signal an invalid-configuration error
before any pixel is processed: both engines happily process the all-zero
kernel (the single pixel 100 is quantized to 0, so processing did happen)
and the zero-area buffer, and produce outputs. -/
theorem no_validation_cex :
    ditherMono zeroKernel 16 buf100 = some { width := 1, height := 1, pix := [0] } ∧
      dither zeroKernel 16 buf100 = some { width := 1, height := 1, pix := [0] } ∧
      ditherMono floydSteinbergMatrix 16 bufEmpty = some bufEmpty := by
  refine ⟨?_, ?_, ?_⟩ <;> decide

/-- Setting a position to the value it already holds leaves a list
unchanged. -/
theorem set_self_of_getElem? (l : List Nat) :
    ∀ (n v : Nat), l[n]? = some v → l.set n v = l := by
  induction l with
  | nil =>
    intro n v h
    simp at h
  | cons a l ih =>
    intro n v h
    cases n with
    | zero =>
      simp only [List.getElem?_cons_zero, Option.some.injEq] at h
      rw [← h]
      rfl
    | succ n =>
      simp only [List.getElem?_cons_succ] at h
      simp only [List.set_cons_succ, ih n v h]

/-- Writing back the value already stored at an in-bounds coordinate returns
the buffer unchanged. -/
theorem setPix_id {g : GrayBuf} (hwf : g.wf) {nx ny : Int}
    (hb : 0 ≤ nx ∧ nx < (g.width : Int) ∧ 0 ≤ ny ∧ ny < (g.height : Int))
    {v : Nat} (hv : getPix g nx ny = some v) : setPix g nx ny v = some g := by
  have hpv : g.pix[ny.toNat * g.width + nx.toNat]? = some v := by
    unfold getPix at hv
    rw [if_pos hb] at hv
    exact hv
  rw [setPix_total_int hwf hb v, set_self_of_getElem? g.pix _ v hpv]

/-- The quantizer fixes both of its output levels. -/
theorem fcpc_fix {c : Nat} (hc : c = 0 ∨ c = 255) : findClosestPaletteColor c = c := by
  rcases hc with h | h <;> subst h <;> decide

/-- A zero quantization error updates a byte-ranged neighbour to itself. -/
theorem updateNeighbor_zero {old : Nat} (hold : old ≤ 255) (w : Nat) (d : Int) :
    updateNeighbor old 0 w d = old := by
  unfold updateNeighbor
  rw [zero_mul, Int.zero_fdiv, add_zero, max_eq_right (Int.natCast_nonneg old),
    min_eq_right (by exact_mod_cast hold)]
  exact Int.toNat_natCast old

/-- With zero error, the inner-loop body fixes a uniform bilevel buffer. -/
theorem distCell_fix {g : GrayBuf} (hwf : g.wf) {c : Nat} (hc : c = 0 ∨ c = 255)
    (huni : ∀ v ∈ g.pix, v = c) (d : Int) (w : Nat) (nx ny : Int) :
    distCell d 0 w nx ny g = some g := by
  unfold distCell
  split_ifs with hw hb
  · obtain ⟨v, hv, hvm⟩ := getPix_total_int hwf hb
    have hvc : v = c := huni v hvm
    have h255 : v ≤ 255 := by
      rcases hc with h | h <;> omega
    simp only [hv, updateNeighbor_zero h255 w d]
    exact setPix_id hwf hb hv
  · rfl
  · rfl

/-- With zero error, one kernel row of distribution fixes a uniform bilevel
buffer. -/
theorem distRowGo_fix {g : GrayBuf} (hwf : g.wf) {c : Nat} (hc : c = 0 ∨ c = 255)
    (huni : ∀ v ∈ g.pix, v = c) (xoff d : Int) (x y i : Nat) :
    ∀ (ws : List Nat) (j : Nat), distRowGo xoff d 0 x y i j ws g = some g := by
  intro ws
  induction ws with
  | nil =>
    intro j
    rfl
  | cons w ws ih =>
    intro j
    simp only [distRowGo, distCell_fix hwf hc huni d w _ _, ih (j + 1)]

/-- With zero error, the whole distribution loop fixes a uniform bilevel
buffer. -/
theorem distGo_fix {g : GrayBuf} (hwf : g.wf) {c : Nat} (hc : c = 0 ∨ c = 255)
    (huni : ∀ v ∈ g.pix, v = c) (xoff d : Int) (x y : Nat) :
    ∀ (rows : List (List Nat)) (i : Nat), distGo xoff d 0 x y i rows g = some g := by
  intro rows
  induction rows with
  | nil =>
    intro i
    rfl
  | cons row rows ih =>
    intro i
    simp only [distGo, distRowGo_fix hwf hc huni xoff d x y i row 0, ih (i + 1)]

/-- The per-pixel body fixes a uniform bilevel buffer: the sample quantizes
to itself, the error is zero, and the write-back stores the old value. -/
theorem ditherStep_fix {g : GrayBuf} (hwf : g.wf) {c : Nat} (hc : c = 0 ∨ c = 255)
    (huni : ∀ v ∈ g.pix, v = c) (xoff d : Int) (matrix : List (List Nat))
    {x y : Nat} (hx : x < g.width) (hy : y < g.height) :
    ditherStep xoff matrix d x y g = some g := by
  have hb : 0 ≤ (x : Int) ∧ (x : Int) < (g.width : Int) ∧ 0 ≤ (y : Int) ∧
      (y : Int) < (g.height : Int) := by omega
  obtain ⟨v, hv, hvm⟩ := getPix_total_int hwf hb
  have hvc : v = c := huni v hvm
  have hfix : findClosestPaletteColor v = v := fcpc_fix (by omega)
  simp only [ditherStep, hv, hfix, setPix_id hwf hb hv, sub_self]
  exact distGo_fix hwf hc huni xoff d x y matrix 0

/-- The row scan fixes a uniform bilevel buffer. -/
theorem scanRow_fix {g : GrayBuf} (hwf : g.wf) {c : Nat} (hc : c = 0 ∨ c = 255)
    (huni : ∀ v ∈ g.pix, v = c) (xoff d : Int) (matrix : List (List Nat))
    (y : Nat) (hy : y < g.height) :
    ∀ (cnt x : Nat), x + cnt ≤ g.width → scanRow xoff matrix d y cnt x g = some g := by
  intro cnt
  induction cnt with
  | zero =>
    intro x _
    rfl
  | succ n ih =>
    intro x hxc
    have hx : x < g.width := by omega
    simp only [scanRow, ditherStep_fix hwf hc huni xoff d matrix hx hy,
      ih (x + 1) (by omega)]

/-- The full raster scan fixes a uniform bilevel buffer. -/
theorem scanRows_fix {g : GrayBuf} (hwf : g.wf) {c : Nat} (hc : c = 0 ∨ c = 255)
    (huni : ∀ v ∈ g.pix, v = c) (xoff d : Int) (matrix : List (List Nat)) :
    ∀ (cnt y : Nat), y + cnt ≤ g.height →
      scanRows xoff matrix d g.width cnt y g = some g := by
  intro cnt
  induction cnt with
  | zero =>
    intro y _
    rfl
  | succ n ih =>
    intro y hyc
    simp only [scanRows, scanRow_fix hwf hc huni xoff d matrix y (by omega)
      g.width 0 (by omega), ih (y + 1) (by omega)]

/-- C5: for every kernel in the catalog, a well-formed buffer whose samples
are all 0 — and likewise one whose samples are all 255 — is mapped to itself
by all three dithering functions: every pixel quantizes to its own value, so
every quantization error is 0 and no error is propagated. -/
theorem uniform_fixed (matrix : List (List Nat)) (d : Int)
    (_hmem : (matrix, d) ∈ kernelCatalog) {g : GrayBuf} (hwf : g.wf) (c : Nat)
    (hc : c = 0 ∨ c = 255) (huni : ∀ v ∈ g.pix, v = c) :
    ditherMono matrix d g = some g ∧ ditherChannel g matrix d = some g ∧
      dither matrix d g = some g := by
  refine ⟨?_, ?_, ?_⟩
  · show scanRows 2 matrix d g.width g.height 0 g = some g
    exact scanRows_fix hwf hc huni 2 d matrix g.height 0 (by omega)
  · show scanRows 2 matrix d (copyGray g).width (copyGray g).height 0 (copyGray g) =
      some g
    rw [copyGray_eq_self hwf]
    exact scanRows_fix hwf hc huni 2 d matrix g.height 0 (by omega)
  · show scanRows 1 matrix d g.width g.height 0 g = some g
    exact scanRows_fix hwf hc huni 1 d matrix g.height 0 (by omega)

/-- Witness for `uniform_fixed`: the all-0 buffer `buf0` and the all-255
buffer `buf255` with the floyd_steinberg catalog kernel. -/
theorem uniform_fixed_witness :
    ((floydSteinbergMatrix, (16 : Int)) ∈ kernelCatalog ∧ buf0.wf ∧
      (∀ v ∈ buf0.pix, v = 0) ∧
      (ditherMono floydSteinbergMatrix 16 buf0 = some buf0 ∧
        ditherChannel buf0 floydSteinbergMatrix 16 = some buf0 ∧
        dither floydSteinbergMatrix 16 buf0 = some buf0)) ∧
    (buf255.wf ∧ (∀ v ∈ buf255.pix, v = 255) ∧
      (ditherMono floydSteinbergMatrix 16 buf255 = some buf255 ∧
        ditherChannel buf255 floydSteinbergMatrix 16 = some buf255 ∧
        dither floydSteinbergMatrix 16 buf255 = some buf255)) :=
  ⟨⟨by decide, by decide, by decide,
      uniform_fixed floydSteinbergMatrix 16 (by decide) (by decide) 0 (Or.inl rfl)
        (by decide)⟩,
    ⟨by decide, by decide,
      uniform_fixed floydSteinbergMatrix 16 (by decide) (by decide) 255 (Or.inr rfl)
        (by decide)⟩⟩

/-- C1: the specification's reference scenario on the 2-by-1 grayscale buffer
with samples 100, 100 and the floyd_steinberg kernel.  Copy 2's `dither`
(anchor offset 1) matches the claim exactly: pixel (0,0) quantizes to 0 with
error 100, the weight 7 propagates `100*7/16 = 43` (truncated) to pixel
(1,0), raising it to 143, which then quantizes to 255 — output `[0, 255]`.
Copy 1's `ditherMono` (anchor offset 2) instead adds the truncated error back
into the just-quantized pixel (`nx = x + 2 - 2 = x`), propagates nothing to
pixel (1,0), and returns `[43, 43]`, contradicting the claimed `[0, 255]`. -/
theorem floyd_2x1_eval :
    ditherMono floydSteinbergMatrix 16 buf100x2 =
        some { width := 2, height := 1, pix := [43, 43] } ∧
      dither floydSteinbergMatrix 16 buf100x2 =
        some { width := 2, height := 1, pix := [0, 255] } := by
  constructor
  · decide
  · decide

/-- C3: the two near-duplicate implementations are not extensionally equal:
`ditherMono` computes the neighbour x-coordinate as `x + j - 2` while
`dither` computes it as `x + j - 1`, and on the concrete buffer `buf100x2`
with the floyd_steinberg catalog kernel they return different outputs. -/
theorem copies_differ :
    ∃ (g : GrayBuf) (matrix : List (List Nat)) (d : Int),
      (matrix, d) ∈ kernelCatalog ∧ ditherMono matrix d g ≠ dither matrix d g :=
  ⟨buf100x2, floydSteinbergMatrix, 16, by decide, by decide⟩

/-- C7: the quantizer `findClosestPaletteColor` is a pure deterministic
threshold function: on every sample in [0, 255] it returns 0 exactly when the
sample is strictly below 128 and 255 otherwise, and its output is always one
of the two levels. -/
theorem quantizer_threshold (p : Nat) (hp : p ≤ 255) :
    (p < 128 → findClosestPaletteColor p = 0) ∧
      (128 ≤ p → findClosestPaletteColor p = 255) ∧
      (findClosestPaletteColor p = 0 ∨ findClosestPaletteColor p = 255) := by
  unfold findClosestPaletteColor
  refine ⟨fun h => if_pos h, fun h => if_neg (by omega), ?_⟩
  split_ifs <;> simp

/-- Witness for `quantizer_threshold` at the concrete sample 100. -/
theorem quantizer_threshold_witness :
    (100 : Nat) ≤ 255 ∧
      ((100 < 128 → findClosestPaletteColor 100 = 0) ∧
        (128 ≤ 100 → findClosestPaletteColor 100 = 255) ∧
        (findClosestPaletteColor 100 = 0 ∨ findClosestPaletteColor 100 = 255)) :=
  ⟨by decide, quantizer_threshold 100 (by decide)⟩

/-- C8: every method-selection string other than "1", "2", "3", "4" falls
through the `switch` default of both drivers, which select the atkinson
ditherer and proceed rather than failing. -/
theorem fallback_default (choice : String) (h1 : choice ≠ "1") (h2 : choice ≠ "2")
    (h3 : choice ≠ "3") (h4 : choice ≠ "4") :
    selectDitherer1 choice = "atkinson" ∧ selectDitherer2 choice = "atkinson" := by
  constructor
  · unfold selectDitherer1
    split <;> simp_all
  · unfold selectDitherer2
    split <;> simp_all

/-- Witness for `fallback_default` at the concrete unrecognized choice
`choiceFive`. -/
theorem fallback_default_witness :
    choiceFive ≠ "1" ∧ choiceFive ≠ "2" ∧ choiceFive ≠ "3" ∧ choiceFive ≠ "4" ∧
      selectDitherer1 choiceFive = "atkinson" ∧
      selectDitherer2 choiceFive = "atkinson" := by
  refine ⟨by decide, by decide, by decide, by decide, ?_, ?_⟩
  · exact (fallback_default choiceFive (by decide) (by decide) (by decide)
      (by decide)).1
  · exact (fallback_default choiceFive (by decide) (by decide) (by decide)
      (by decide)).2

/-- Flooring commutes with the [0, 255] clamp because both clamp bounds are
integers. -/
theorem floor_clamp_comm (q : ℚ) :
    ⌊min (255 : ℚ) (max 0 q)⌋ = min 255 (max 0 ⌊q⌋) := by
  rcases le_total q 0 with h0 | h0
  · have hf : ⌊q⌋ ≤ 0 := by
      calc ⌊q⌋ ≤ ⌊(0 : ℚ)⌋ := Int.floor_le_floor h0
        _ = 0 := Int.floor_zero
    rw [max_eq_left h0, min_eq_right (by norm_num : (0 : ℚ) ≤ 255), Int.floor_zero,
      max_eq_left hf, min_eq_right (by norm_num : (0 : Int) ≤ 255)]
  · rcases le_total (255 : ℚ) q with h255 | h255
    · have hf : (255 : Int) ≤ ⌊q⌋ := Int.le_floor.mpr (by exact_mod_cast h255)
      rw [max_eq_right h0, min_eq_left h255, max_eq_right (by omega : (0 : Int) ≤ ⌊q⌋),
        min_eq_left hf]
      norm_num
    · have hf0 : (0 : Int) ≤ ⌊q⌋ := Int.le_floor.mpr (by exact_mod_cast h0)
      have hf255 : ⌊q⌋ ≤ 255 := by
        calc ⌊q⌋ ≤ ⌊(255 : ℚ)⌋ := Int.floor_le_floor h255
          _ = 255 := by norm_num
      rw [max_eq_right h0, min_eq_right h255, max_eq_right hf0, min_eq_right hf255]

/-- The executable integer neighbour update agrees with the literal rational
transcription of the Go float expression for every positive divisor. -/
theorem updateNeighbor_models (old : Nat) (err : Int) (w : Nat) {d : Int}
    (hd : 0 < d) : updateNeighbor old err w d = updateNeighborFloat old err w d := by
  unfold updateNeighbor updateNeighborFloat
  have hdq : ((d.toNat : ℕ) : ℚ) = ((d : Int) : ℚ) := by
    exact_mod_cast Int.toNat_of_nonneg hd.le
  have hq : ((old : ℚ) + (err : ℚ) * ((w : ℚ) / (d : ℚ))) =
      ((old : Int) : ℚ) + (((err * (w : Int)) : Int) : ℚ) / ((d.toNat : ℕ) : ℚ) := by
    rw [hdq]
    push_cast
    ring
  rw [hq]
  have hfl : ⌊((old : Int) : ℚ) + (((err * (w : Int)) : Int) : ℚ) / ((d.toNat : ℕ) : ℚ)⌋ =
      (old : Int) + (err * (w : Int)).fdiv d := by
    rw [Int.floor_int_add]
    congr 1
    rw [Rat.floor_intCast_div_natCast, Int.fdiv_eq_ediv _ hd.le]
    congr 1
    exact Int.toNat_of_nonneg hd.le
  rw [floor_clamp_comm, hfl]

/-- On an image whose red, green and blue samples agree at every in-bounds
pixel, all three extracted channels are the same buffer. -/
theorem extractChannel_eq_of_gray {img : RGBImage}
    (hgray : ∀ x, x < img.width → ∀ y, y < img.height →
      (img.at8 x y).1 = (img.at8 x y).2.1 ∧ (img.at8 x y).2.1 = (img.at8 x y).2.2) :
    extractChannel img 1 = extractChannel img 0 ∧
      extractChannel img 2 = extractChannel img 0 := by
  constructor
  · unfold extractChannel
    simp only [GrayBuf.mk.injEq, true_and]
    apply flatMap_congr_left
    intro y hy
    apply List.map_congr_left
    intro x hx
    rw [List.mem_range] at hy hx
    exact ((hgray x hx y hy).1).symm
  · unfold extractChannel
    simp only [GrayBuf.mk.injEq, true_and]
    apply flatMap_congr_left
    intro y hy
    apply List.map_congr_left
    intro x hx
    rw [List.mem_range] at hy hx
    exact ((hgray x hx y hy).1.trans (hgray x hx y hy).2).symm

/-- An in-bounds `GrayAt` read of a well-formed buffer returns a member of
its store. -/
theorem grayAtD_mem {g : GrayBuf} (hwf : g.wf) {x y : Nat} (hx : x < g.width)
    (hy : y < g.height) : grayAtD g (x : Int) (y : Int) ∈ g.pix := by
  rw [grayAtD_natCast, if_pos ⟨hx, hy⟩]
  have hidx : y * g.width + x < g.pix.length := by
    rw [hwf]
    exact rowMajorIdx_lt hx hy
  rw [List.getD_eq_getElem?_getD, List.getElem?_eq_getElem hidx]
  exact List.getElem_mem hidx

/-- C6 (amended): for every kernel in the catalog and every colour image
whose red, green and blue samples agree at every pixel, `ditherColor`
completes and its output has pairwise identical red, green and blue channels
at every pixel, with alpha 255.  Every channel sample is additionally 0 or
255 when the kernel is shtuki; with the other catalog kernels the channel
pass (anchor offset 2) writes error back into the just-quantized pixel and
the output need not be bilevel (see `gray_channels_cex`). -/
theorem gray_channels_identical (matrix : List (List Nat)) (d : Int)
    (_hmem : (matrix, d) ∈ kernelCatalog) (img : RGBImage)
    (hgray : ∀ x, x < img.width → ∀ y, y < img.height →
      (img.at8 x y).1 = (img.at8 x y).2.1 ∧ (img.at8 x y).2.1 = (img.at8 x y).2.2) :
    ∃ out, ditherColor img matrix d = some out ∧
      (∀ p ∈ out.pix, p.1 = p.2.1 ∧ p.2.1 = p.2.2.1 ∧ p.2.2.2 = 255) ∧
      (matrix = shtukiMatrix → ∀ p ∈ out.pix, p.1 = 0 ∨ p.1 = 255) := by
  obtain ⟨hE1, hE2⟩ := extractChannel_eq_of_gray hgray
  obtain ⟨dr, hdr, hwdr, hhdr, hwfdr⟩ :=
    ditherChannel_total matrix d (extractChannel img 0)
  refine ⟨⟨img.width, img.height,
    (List.range img.height).flatMap fun (y : Nat) =>
      (List.range img.width).map fun (x : Nat) =>
        (grayAtD dr (x : Int) (y : Int), grayAtD dr (x : Int) (y : Int),
          grayAtD dr (x : Int) (y : Int), 255)⟩, ?_, ?_, ?_⟩
  · simp only [ditherColor, hE1, hE2, hdr]
  · intro p hp
    simp only [List.mem_flatMap, List.mem_map, List.mem_range] at hp
    obtain ⟨y, hy, x, hx, rfl⟩ := hp
    exact ⟨rfl, rfl, rfl⟩
  · intro hsh
    subst hsh
    obtain ⟨out2, hout2, hw2, hh2, hwf2, hbl2⟩ :=
      scanRows_bilevel_full 2 shtukiMatrix d (by decide)
        (copyGray_wf (extractChannel img 0))
    have hdr' : scanRows 2 shtukiMatrix d (copyGray (extractChannel img 0)).width
        (copyGray (extractChannel img 0)).height 0
        (copyGray (extractChannel img 0)) = some dr := hdr
    rw [hout2] at hdr'
    injection hdr' with hdx
    subst hdx
    intro p hp
    simp only [List.mem_flatMap, List.mem_map, List.mem_range] at hp
    obtain ⟨y, hy, x, hx, rfl⟩ := hp
    have hxw : x < out2.width := by
      rw [hw2]
      exact hx
    have hyh : y < out2.height := by
      rw [hh2]
      exact hy
    exact hbl2 _ (grayAtD_mem hwf2 hxw hyh)

/-- Witness for `gray_channels_identical`: the concrete 1-by-1 gray image
`grayImage1` with the floyd_steinberg catalog kernel. -/
theorem gray_channels_identical_witness :
    (floydSteinbergMatrix, (16 : Int)) ∈ kernelCatalog ∧
      (∀ x, x < grayImage1.width → ∀ y, y < grayImage1.height →
        (grayImage1.at8 x y).1 = (grayImage1.at8 x y).2.1 ∧
          (grayImage1.at8 x y).2.1 = (grayImage1.at8 x y).2.2) ∧
      ∃ out, ditherColor grayImage1 floydSteinbergMatrix 16 = some out ∧
        (∀ p ∈ out.pix, p.1 = p.2.1 ∧ p.2.1 = p.2.2.1 ∧ p.2.2.2 = 255) ∧
        (floydSteinbergMatrix = shtukiMatrix → ∀ p ∈ out.pix, p.1 = 0 ∨ p.1 = 255) :=
  ⟨by decide, by decide,
    gray_channels_identical floydSteinbergMatrix 16 (by decide) grayImage1 (by decide)⟩

/-- Counterexample to the claim that colour-mode output on a gray image is
bilevel in every channel: on the concrete 1-by-1 image with r = g = b = 100
and the floyd_steinberg kernel, `ditherColor` returns the channel sample 43
in all three channels (identical, but not 0 or 255), because the channel
pass re-adds the quantization error to the just-quantized pixel. -/
theorem gray_channels_cex :
    ditherColor grayImage1 floydSteinbergMatrix 16 =
        some { width := 1, height := 1, pix := [(43, 43, 43, 255)] } ∧
      ¬((43 : Nat) = 0 ∨ (43 : Nat) = 255) := by
  constructor
  · decide
  · decide

end Disering
